import Mathlib

/-!
Shallow embedding of the simulation core of `src/main.rs` (a Leptos app
modelling a population whose happiness advances in weekly ticks).

Modelling conventions:
- The reactive-store wrappers (`Store`, `Field`, `.read()`, `.write()`) are
  transparent at the level of the simulation logic; the embedding works on the
  plain data they contain.
- The two global `AtomicU64` counters (`NEXT_PERSON_ID`,
  `NEXT_HAPPINESS_MODIFIER_ID`) are threaded explicitly as `Nat` state.
  `AtomicU64::fetch_add(1, Ordering::Relaxed)` returns the old value and stores
  the wrapping increment, so it is modelled with an explicit `% 2^64`.
- `HashMap<PersonId, usize>` is modelled as an association list built in the
  same order as the `collect()` in `Population::new` (`buildIndex`), with the
  lookup function `idxLookup` modelling `HashMap::get`.
- Panics (`unwrap`, `unwrap_or_else` with a panicking closure) are modelled by `Option`:
  `none` is a panic.
- `f64` contributions are modelled as `ℚ`; the only value that occurs, `0.5`,
  is exactly representable in `f64`, so the embedding is exact.
-/

namespace LeptosBug

/-- Modulus of Rust `u64` arithmetic. -/
def U64_MOD : Nat := 2 ^ 64

/-- Models `AtomicU64::fetch_add(1, Ordering::Relaxed)` on a counter holding
`c`: the call returns the old value `c` and stores the wrapping increment
`(c + 1) % 2^64`. -/
def fetchAddOne (c : Nat) : Nat × Nat := (c, (c + 1) % U64_MOD)

/-- The trace of values returned by `n` successive calls to one allocator's
`fetch_add(1, Relaxed)` starting from counter state `c`. -/
def allocRun : Nat → Nat → List Nat
  | _, 0 => []
  | c, n + 1 =>
    let (v, c') := fetchAddOne c
    v :: allocRun c' n

/-- Embeds `struct PersonId(u64)` from `src/main.rs`. -/
structure PersonId where
  val : Nat
deriving DecidableEq, Repr

/-- Embeds `struct HappinessModifierId(u64)` from `src/main.rs`. -/
structure HappinessModifierId where
  val : Nat
deriving DecidableEq, Repr

/-- Embeds `enum HappinessModifierKind { Default }` from `src/main.rs`: a closed
variant set with a single variant. -/
inductive HappinessModifierKind where
  | Default
deriving DecidableEq, Repr

/-- Embeds `HappinessModifierKind::happiness`: `match self { Self::Default => 0.5 }`. -/
def HappinessModifierKind.happiness : HappinessModifierKind → ℚ
  | .Default => 1 / 2

/-- Embeds `struct HappinessModifier { id, kind }` from `src/main.rs`. -/
structure HappinessModifier where
  id : HappinessModifierId
  kind : HappinessModifierKind
deriving DecidableEq, Repr

/-- Embeds `HappinessModifier::create`: fetches a fresh id from the
`NEXT_HAPPINESS_MODIFIER_ID` counter (state `mc`) and fixes kind `Default`. -/
def HappinessModifier.create (mc : Nat) : HappinessModifier × Nat :=
  let (v, mc') := fetchAddOne mc
  (⟨⟨v⟩, .Default⟩, mc')

/-- Embeds `HappinessModifier::key`: returns `self.id`. -/
def HappinessModifier.key (m : HappinessModifier) : HappinessModifierId := m.id

/-- Embeds `HappinessModifier::happiness`: reads `kind` and delegates to
`HappinessModifierKind::happiness` (a pure function of the kind). -/
def HappinessModifier.happiness (m : HappinessModifier) : ℚ := m.kind.happiness

/-- Embeds `struct Happiness { happiness_modifiers: Vec<HappinessModifier> }`.
The `#[store(key: ...)]` attribute only affects reactive tracking and keyed
iteration in the UI; the data is a plain vector. -/
structure Happiness where
  happiness_modifiers : List HappinessModifier
deriving DecidableEq, Repr

/-- The store insertion primitive used by `Happiness::add_happiness_modifier`:
`self.happiness_modifiers().write().push(v)`, i.e. `Vec::push` — an
unconditional append with no duplicate-key check and no error path. -/
def Happiness.push_modifier (h : Happiness) (m : HappinessModifier) : Happiness :=
  ⟨h.happiness_modifiers ++ [m]⟩

/-- Embeds `Happiness::add_happiness_modifier`: pushes `HappinessModifier::create()`
onto the modifier vector. -/
def Happiness.add_happiness_modifier (h : Happiness) (mc : Nat) : Happiness × Nat :=
  let (m, mc') := HappinessModifier.create mc
  (h.push_modifier m, mc')

/-- Embeds `Happiness::new_initial`: a vector holding exactly one freshly created
modifier. -/
def Happiness.new_initial (mc : Nat) : Happiness × Nat :=
  let (m, mc') := HappinessModifier.create mc
  (⟨[m]⟩, mc')

/-- Modelled from the spec: `total_happiness()` is described in §4.5 as a
derived read summing the numeric contribution of every modifier in the store;
it has no counterpart under `src/` (the UI queries per-modifier contributions
individually). -/
def Happiness.total_happiness (h : Happiness) : ℚ :=
  (h.happiness_modifiers.map HappinessModifier.happiness).sum

/-- Embeds `struct Person { id, happiness }` from `src/main.rs`. -/
structure Person where
  id : PersonId
  happiness : Happiness
deriving DecidableEq, Repr

/-- Embeds `Person::create`: fetches a fresh id from the `NEXT_PERSON_ID` counter
(state `pc`) and builds an initial happiness (consuming modifier-id state
`mc`). -/
def Person.create (pc mc : Nat) : Person × Nat × Nat :=
  let (v, pc') := fetchAddOne pc
  let (h, mc') := Happiness.new_initial mc
  (⟨⟨v⟩, h⟩, pc', mc')

/-- Embeds `Person::key`: returns `self.id`. -/
def Person.key (p : Person) : PersonId := p.id

/-- Embeds `Happiness::finish_week(person)`: clears the person's modifier vector
(`.write().clear()`), then calls `add_happiness_modifier` on it. -/
def Happiness.finish_week (person : Person) (mc : Nat) : Person × Nat :=
  let cleared : Happiness := ⟨[]⟩
  let (h', mc') := cleared.add_happiness_modifier mc
  ({ person with happiness := h' }, mc')

/-- Embeds `Person::finish_week`: delegates to `Happiness::finish_week`. -/
def Person.finish_week (p : Person) (mc : Nat) : Person × Nat :=
  Happiness.finish_week p mc

/-- Embeds `struct Population { people_by_id: HashMap<PersonId, usize>,
people: Vec<Person> }`. The map is modelled as an association list built in
iteration order. -/
structure Population where
  people_by_id : List (PersonId × Nat)
  people : List Person
deriving DecidableEq, Repr

/-- Embeds `people.iter().enumerate().map(|(index, person)| (person.key(), index))`:
the index entries in sequence order, starting at position `i`. -/
def buildIndex : List Person → Nat → List (PersonId × Nat)
  | [], _ => []
  | p :: rest, i => (p.key, i) :: buildIndex rest (i + 1)

/-- Embeds `HashMap::get` on the association-list model: first entry whose key
matches. -/
def idxLookup (k : PersonId) : List (PersonId × Nat) → Option Nat
  | [] => none
  | (k', i) :: rest => if k' = k then some i else idxLookup k rest

/-- The loop `for _ in 0..n { people.push(Person::create()); }` threading both
id counters: returns the people in creation order and the final counters. -/
def createPeople : Nat → Nat → Nat → List Person × Nat × Nat
  | 0, pc, mc => ([], pc, mc)
  | n + 1, pc, mc =>
    let (p, pc', mc') := Person.create pc mc
    let (rest, pc'', mc'') := createPeople n pc' mc'
    (p :: rest, pc'', mc'')

/-- Embeds `Population::new`: creates 5 people, then collects `(key, index)` pairs
into `people_by_id`. -/
def Population.new (pc mc : Nat) : Population × Nat × Nat :=
  let (people, pc', mc') := createPeople 5 pc mc
  (⟨buildIndex people 0, people⟩, pc', mc')

/-- Embeds `Population::person`: looks the id up in `people_by_id`
(a panicking `unwrap_or_else` on absence, modelled by `none`), then fetches
the element at that sequence position (`.nth(index).unwrap()`, again `none` on
failure). -/
def Population.person (pop : Population) (person_id : PersonId) : Option Person :=
  match idxLookup person_id pop.people_by_id with
  | none => none
  | some index => pop.people.get? index

/-- The mutable iteration of `Population::finish_week`: applies the per-person
tick to each element in sequence order, threading the modifier-id counter. -/
def mapCounter (f : Person → Nat → Person × Nat) : List Person → Nat → List Person × Nat
  | [], mc => ([], mc)
  | p :: rest, mc =>
    let (p', mc') := f p mc
    let (rest', mc'') := mapCounter f rest mc'
    (p' :: rest', mc'')

/-- Embeds `Population::finish_week`: calls `Person::finish_week` on every person in
store order; `people_by_id` is not touched. -/
def Population.finish_week (pop : Population) (mc : Nat) : Population × Nat :=
  let (people', mc') := mapCounter Person.finish_week pop.people mc
  ({ pop with people := people' }, mc')

/-- Index consistency: `people_by_id` is exactly the `(key, position)` pairs of
the current `people` sequence. This is what `Population::new` establishes. -/
def Population.wf (pop : Population) : Prop :=
  pop.people_by_id = buildIndex pop.people 0

/-- States of `(population, modifier-id counter)` reachable from
`Population::new` (with in-range counters) by any number of weekly ticks;
lookups do not mutate. -/
inductive Reached : Population → Nat → Prop
  | start (pc mc : Nat) (hpc : pc < U64_MOD) :
      Reached (Population.new pc mc).1 (Population.new pc mc).2.2
  | step (pop : Population) (mc : Nat) :
      Reached pop mc → Reached (Population.finish_week pop mc).1 (Population.finish_week pop mc).2

theorem allocRun_length : ∀ (n c : Nat), (allocRun c n).length = n := by
  intro n
  induction n with
  | zero => intro c; rfl
  | succ n ih => intro c; simp [allocRun, fetchAddOne, ih]

theorem U64_MOD_pos : 0 < U64_MOD := by decide

theorem allocRun_get? : ∀ (n c i : Nat), c < U64_MOD → i < n →
    (allocRun c n).get? i = some ((c + i) % U64_MOD) := by
  intro n
  induction n with
  | zero => intro c i _ hi; exact absurd hi (Nat.not_lt_zero i)
  | succ n ih =>
    intro c i hc hi
    cases i with
    | zero =>
      simp [allocRun, fetchAddOne, Nat.mod_eq_of_lt hc]
    | succ i =>
      have hc' : (c + 1) % U64_MOD < U64_MOD := Nat.mod_lt _ U64_MOD_pos
      have h := ih ((c + 1) % U64_MOD) i hc' (Nat.lt_of_succ_lt_succ hi)
      simp only [allocRun, fetchAddOne, List.get?]
      rw [h, Nat.mod_add_mod]
      congr 2
      omega

theorem allocRun_get_eq (n c i : Nat) (hc : c < U64_MOD) (hlt : i < (allocRun c n).length) :
    (allocRun c n).get ⟨i, hlt⟩ = (c + i) % U64_MOD := by
  have hi : i < n := by rw [allocRun_length] at hlt; exact hlt
  have h1 := allocRun_get? n c i hc hi
  rw [List.get?_eq_get hlt] at h1
  exact Option.some.inj h1

/-- Claim C3 counterexample: starting from the allocators' initial counter
state 1, the trace of 2^64 + 1 successive calls is neither strictly increasing
nor pairwise distinct: the value 1 is returned both by the first call and by
the call after the counter wraps. -/
theorem C3_counterexample :
    ¬ (((allocRun 1 (U64_MOD + 1)).Pairwise (· < ·)) ∧
       ((allocRun 1 (U64_MOD + 1)).Pairwise (· ≠ ·))) := by
  rintro ⟨-, hne⟩
  have hlen : (allocRun 1 (U64_MOD + 1)).length = U64_MOD + 1 := allocRun_length _ _
  have h0lt : 0 < (allocRun 1 (U64_MOD + 1)).length := by omega
  have hMlt : U64_MOD < (allocRun 1 (U64_MOD + 1)).length := by omega
  have h1 : 1 < U64_MOD := by decide
  have h0 : (allocRun 1 (U64_MOD + 1)).get ⟨0, h0lt⟩ = 1 := by
    rw [allocRun_get_eq _ _ _ h1 h0lt]
    exact Nat.mod_eq_of_lt h1
  have hM : (allocRun 1 (U64_MOD + 1)).get ⟨U64_MOD, hMlt⟩ = 1 := by
    rw [allocRun_get_eq _ _ _ h1 hMlt, Nat.add_mod_right]
    exact Nat.mod_eq_of_lt h1
  have hlt := (List.pairwise_iff_get.mp hne) ⟨0, h0lt⟩ ⟨U64_MOD, hMlt⟩
    (Fin.mk_lt_mk.mpr U64_MOD_pos)
  rw [h0, hM] at hlt
  exact hlt rfl

/-- Claim C3 (amended): as long as the total number of calls does not overflow
the counter (`c + n ≤ 2^64`), the `n` returned values are strictly increasing
and pairwise distinct. -/
theorem C3_alloc_strictly_increasing (n c : Nat) (h : c + n ≤ U64_MOD) :
    ((allocRun c n).Pairwise (· < ·)) ∧ ((allocRun c n).Pairwise (· ≠ ·)) := by
  have hmono : (allocRun c n).Pairwise (· < ·) := by
    rcases Nat.eq_zero_or_pos n with hn | hn
    · subst hn; simp [allocRun]
    · have hc : c < U64_MOD := by omega
      rw [List.pairwise_iff_get]
      intro i j hij
      rw [allocRun_get_eq n c i hc i.isLt, allocRun_get_eq n c j hc j.isLt]
      have hlen := allocRun_length n c
      have hi : (i : Nat) < n := by have h2 := i.isLt; omega
      have hj : (j : Nat) < n := by have h2 := j.isLt; omega
      rw [Nat.mod_eq_of_lt (by omega), Nat.mod_eq_of_lt (by omega)]
      have : (i : Nat) < (j : Nat) := hij
      omega
  exact ⟨hmono, hmono.imp Nat.ne_of_lt⟩

theorem C3_witness :
    ((allocRun 2 3).Pairwise (· < ·)) ∧ ((allocRun 2 3).Pairwise (· ≠ ·)) :=
  C3_alloc_strictly_increasing 3 2 (by decide)

/-- Claim C4 counterexample: a `next()` call when the counter holds the
maximum `u64` value does not fail: it returns `2^64 - 1` and silently wraps
the stored counter to 0. -/
theorem C4_counterexample : fetchAddOne (U64_MOD - 1) = (U64_MOD - 1, 0) := by decide

/-- Claim C4 (amended): allocation never fails; at the maximum counter value
it silently wraps the counter to 0, after which already-returned identifiers
are returned again (the value 1 is returned by call 1 and by call 2^64 + 1). -/
theorem C4_next_wraps_silently :
    (fetchAddOne (U64_MOD - 1)).2 = 0 ∧
    (allocRun 1 (U64_MOD + 1)).get? 0 = some 1 ∧
    (allocRun 1 (U64_MOD + 1)).get? U64_MOD = some 1 := by
  refine ⟨by decide, ?_, ?_⟩
  · rw [allocRun_get? _ _ _ (by decide) (by omega)]
    decide
  · rw [allocRun_get? _ _ _ (by decide) (by omega), Nat.add_mod_right]
    decide

theorem HappinessModifierKind.eq_default (k : HappinessModifierKind) :
    k = HappinessModifierKind.Default := by cases k; rfl

theorem HappinessModifier.happiness_eq_half (m : HappinessModifier) :
    m.happiness = 1 / 2 := by
  cases m with
  | mk i k => cases k; rfl

theorem total_happiness_half_mul (l : List HappinessModifier) :
    (l.map HappinessModifier.happiness).sum = (1 / 2 : ℚ) * l.length := by
  induction l with
  | nil => simp
  | cons m rest ih =>
    simp [HappinessModifier.happiness_eq_half, ih]
    ring

/-- Claim C1 counterexample: pushing a second modifier whose key (id 1)
already exists in the store does not fail with any duplicate-key error — the
insertion primitive (`Vec::push`) has no error path — it silently appends,
leaving the store with two elements of equal key. -/
theorem C1_counterexample :
    (Happiness.push_modifier ⟨[⟨⟨1⟩, .Default⟩]⟩ ⟨⟨1⟩, .Default⟩).happiness_modifiers.map
        HappinessModifier.key = [⟨1⟩, ⟨1⟩] := rfl

/-- Claim C1 (amended): insertion into the modifier store appends
unconditionally and cannot fail — a value with a duplicate key is silently
appended, with no DuplicateKey error. `add_happiness_modifier` itself only
pushes freshly allocated ids, so when every id already in the store is below
the allocator counter, the keys in the store stay pairwise distinct. -/
theorem C1_push_appends_silently (h : Happiness) (m : HappinessModifier) (mc : Nat)
    (hnd : (h.happiness_modifiers.map HappinessModifier.key).Nodup)
    (hfresh : ∀ m' ∈ h.happiness_modifiers, m'.id.val < mc) :
    (h.push_modifier m).happiness_modifiers = h.happiness_modifiers ++ [m] ∧
    ((h.add_happiness_modifier mc).1.happiness_modifiers.map HappinessModifier.key).Nodup := by
  refine ⟨rfl, ?_⟩
  simp only [Happiness.add_happiness_modifier, HappinessModifier.create, fetchAddOne,
    Happiness.push_modifier, List.map_append, List.map_cons, List.map_nil]
  rw [List.nodup_append]
  refine ⟨hnd, List.nodup_singleton _, ?_⟩
  intro a ha hb
  simp only [List.mem_singleton] at hb
  subst hb
  rcases List.mem_map.mp ha with ⟨m', hm', hkey⟩
  have hv : m'.id.val < mc := hfresh m' hm'
  have : m'.id = ⟨mc⟩ := hkey
  rw [this] at hv
  exact absurd hv (lt_irrefl mc)

theorem C1_witness :
    (Happiness.push_modifier ⟨[⟨⟨1⟩, .Default⟩]⟩ ⟨⟨5⟩, .Default⟩).happiness_modifiers
      = [⟨⟨1⟩, .Default⟩] ++ [⟨⟨5⟩, .Default⟩] ∧
    ((Happiness.add_happiness_modifier ⟨[⟨⟨1⟩, .Default⟩]⟩ 2).1.happiness_modifiers.map
      HappinessModifier.key).Nodup :=
  C1_push_appends_silently ⟨[⟨⟨1⟩, .Default⟩]⟩ ⟨⟨5⟩, .Default⟩ 2
    (by decide) (by decide)

/-- Claim C2: the weekly tick of a person leaves exactly one modifier, of kind
Default, whose id differs from every modifier id present before the call
(under the allocator invariant that all ids in the store were returned before
the current counter value). -/
theorem C2_finish_week_single_fresh_default (p : Person) (mc : Nat)
    (hfresh : ∀ m ∈ p.happiness.happiness_modifiers, m.id.val < mc) :
    (Person.finish_week p mc).1.happiness.happiness_modifiers.length = 1 ∧
    ∀ m ∈ (Person.finish_week p mc).1.happiness.happiness_modifiers,
      m.kind = HappinessModifierKind.Default ∧
      ∀ m' ∈ p.happiness.happiness_modifiers, m.id ≠ m'.id := by
  refine ⟨rfl, ?_⟩
  intro m hm
  simp only [Person.finish_week, Happiness.finish_week, Happiness.add_happiness_modifier,
    HappinessModifier.create, fetchAddOne, Happiness.push_modifier, List.nil_append,
    List.mem_singleton] at hm
  subst hm
  refine ⟨rfl, ?_⟩
  intro m' hm' heq
  have hv : m'.id.val < mc := hfresh m' hm'
  rw [← heq] at hv
  exact absurd hv (lt_irrefl mc)

theorem C2_witness :
    (Person.finish_week ⟨⟨1⟩, ⟨[⟨⟨1⟩, .Default⟩, ⟨⟨2⟩, .Default⟩]⟩⟩ 7).1.happiness.happiness_modifiers.length = 1 ∧
    ∀ m ∈ (Person.finish_week ⟨⟨1⟩, ⟨[⟨⟨1⟩, .Default⟩, ⟨⟨2⟩, .Default⟩]⟩⟩ 7).1.happiness.happiness_modifiers,
      m.kind = HappinessModifierKind.Default ∧
      ∀ m' ∈ ([⟨⟨1⟩, .Default⟩, ⟨⟨2⟩, .Default⟩] : List HappinessModifier), m.id ≠ m'.id :=
  C2_finish_week_single_fresh_default ⟨⟨1⟩, ⟨[⟨⟨1⟩, .Default⟩, ⟨⟨2⟩, .Default⟩]⟩⟩ 7 (by decide)

/-- Claim C8: a modifier's contribution is a pure, total function of its kind:
equal kinds give equal contributions, the function is defined on every kind
variant, and kind Default contributes 0.5. -/
theorem C8_contribution_pure_total (m₁ m₂ : HappinessModifier) (hk : m₁.kind = m₂.kind) :
    m₁.happiness = m₂.happiness ∧
    (∀ k : HappinessModifierKind, ∃ q : ℚ, k.happiness = q) ∧
    HappinessModifierKind.Default.happiness = 1 / 2 := by
  refine ⟨?_, fun k => ⟨k.happiness, rfl⟩, rfl⟩
  unfold HappinessModifier.happiness
  rw [hk]

theorem C8_witness :
    (⟨⟨1⟩, .Default⟩ : HappinessModifier).happiness
        = (⟨⟨2⟩, .Default⟩ : HappinessModifier).happiness ∧
    (∀ k : HappinessModifierKind, ∃ q : ℚ, k.happiness = q) ∧
    HappinessModifierKind.Default.happiness = 1 / 2 :=
  C8_contribution_pure_total ⟨⟨1⟩, .Default⟩ ⟨⟨2⟩, .Default⟩ rfl

/-- Claim C9: every modifier ever constructed has kind Default
(`HappinessModifier::create` takes no kind argument and hardcodes it), so
every modifier contributes 0.5 and any happiness total is 0.5 times the
modifier count. -/
theorem C9_all_modifiers_default :
    (∀ mc : Nat, (HappinessModifier.create mc).1.kind = HappinessModifierKind.Default) ∧
    (∀ m : HappinessModifier, m.kind = HappinessModifierKind.Default ∧ m.happiness = 1 / 2) ∧
    (∀ h : Happiness, h.total_happiness = (1 / 2 : ℚ) * h.happiness_modifiers.length) := by
  refine ⟨fun mc => rfl,
    fun m => ⟨HappinessModifierKind.eq_default m.kind, HappinessModifier.happiness_eq_half m⟩,
    fun h => total_happiness_half_mul h.happiness_modifiers⟩

theorem createPeople_succ (n pc mc : Nat) :
    createPeople (n + 1) pc mc =
      ((⟨⟨pc⟩, ⟨[⟨⟨mc⟩, .Default⟩]⟩⟩ : Person) ::
          (createPeople n ((pc + 1) % U64_MOD) ((mc + 1) % U64_MOD)).1,
        (createPeople n ((pc + 1) % U64_MOD) ((mc + 1) % U64_MOD)).2) := rfl

theorem createPeople_length : ∀ (n pc mc : Nat), (createPeople n pc mc).1.length = n := by
  intro n
  induction n with
  | zero => intro pc mc; rfl
  | succ n ih => intro pc mc; rw [createPeople_succ, List.length_cons, ih]

theorem createPeople_ids : ∀ (n pc mc : Nat), pc < U64_MOD →
    ((createPeople n pc mc).1.map fun p => p.id.val)
      = (List.range n).map fun i => (pc + i) % U64_MOD := by
  intro n
  induction n with
  | zero => intro pc mc _; rfl
  | succ n ih =>
    intro pc mc hc
    rw [createPeople_succ, List.map_cons,
      ih ((pc + 1) % U64_MOD) _ (Nat.mod_lt _ U64_MOD_pos),
      List.range_succ_eq_map, List.map_cons, List.map_map]
    congr 1
    · exact (Nat.mod_eq_of_lt hc).symm
    · apply List.map_congr_left
      intro i _
      simp only [Function.comp_apply, Nat.mod_add_mod]
      congr 1
      omega

theorem createPeople_modifiers : ∀ (n pc mc : Nat), ∀ p ∈ (createPeople n pc mc).1,
    ∃ v : Nat, p.happiness = ⟨[⟨⟨v⟩, .Default⟩]⟩ := by
  intro n
  induction n with
  | zero => intro pc mc p hp; exact absurd hp (List.not_mem_nil p)
  | succ n ih =>
    intro pc mc p hp
    rw [createPeople_succ] at hp
    rcases List.mem_cons.mp hp with h | h
    · exact ⟨mc, by rw [h]⟩
    · exact ih _ _ p h

theorem range_map_mod_pairwise (n pc : Nat) (hn : n ≤ U64_MOD) :
    (((List.range n).map fun i => (pc + i) % U64_MOD)).Pairwise (· ≠ ·) := by
  rw [List.pairwise_map, List.pairwise_iff_get]
  intro i j hij heq
  rw [List.get_eq_getElem, List.get_eq_getElem, List.getElem_range, List.getElem_range] at heq
  have hmod : (i : Nat) ≡ (j : Nat) [MOD U64_MOD] :=
    Nat.ModEq.add_left_cancel' pc heq
  have hlen : (List.range n).length = n := List.length_range n
  have hi : (i : Nat) < n := by have h2 := i.isLt; omega
  have hj : (j : Nat) < n := by have h2 := j.isLt; omega
  have : (i : Nat) = (j : Nat) := by
    have h3 : (i : Nat) % U64_MOD = (j : Nat) % U64_MOD := hmod
    rw [Nat.mod_eq_of_lt (by omega), Nat.mod_eq_of_lt (by omega)] at h3
    exact h3
  omega

theorem createPeople_keys_pairwise (n pc mc : Nat) (hpc : pc < U64_MOD) (hn : n ≤ U64_MOD) :
    ((createPeople n pc mc).1.map Person.key).Pairwise (· ≠ ·) := by
  have hvals := createPeople_ids n pc mc hpc
  have hp : (((createPeople n pc mc).1.map fun p => p.id.val)).Pairwise (· ≠ ·) := by
    rw [hvals]; exact range_map_mod_pairwise n pc hn
  rw [List.pairwise_map] at hp ⊢
  refine hp.imp ?_
  intro a b hab hkey
  exact hab (by rw [show a.id = b.id from hkey])

/-- Claim C5: constructing a Population (with the default initial size, under
the allocator invariant that the person-id counter is in `u64` range) yields
exactly 5 people with pairwise-distinct ids, each owning exactly one modifier
of kind Default whose contribution is 0.5. -/
theorem C5_population_new (pc mc : Nat) (hpc : pc < U64_MOD) :
    (Population.new pc mc).1.people.length = 5 ∧
    ((Population.new pc mc).1.people.map Person.key).Pairwise (· ≠ ·) ∧
    ∀ p ∈ (Population.new pc mc).1.people,
      p.happiness.happiness_modifiers.length = 1 ∧
      ∀ m ∈ p.happiness.happiness_modifiers,
        m.kind = HappinessModifierKind.Default ∧ m.happiness = 1 / 2 := by
  refine ⟨createPeople_length 5 pc mc,
    createPeople_keys_pairwise 5 pc mc hpc (by decide), ?_⟩
  intro p hp
  rcases createPeople_modifiers 5 pc mc p hp with ⟨v, hv⟩
  rw [hv]
  refine ⟨rfl, ?_⟩
  intro m hm
  rw [List.mem_singleton] at hm
  subst hm
  exact ⟨rfl, rfl⟩

theorem C5_witness :
    (Population.new 1 1).1.people.length = 5 ∧
    ((Population.new 1 1).1.people.map Person.key).Pairwise (· ≠ ·) ∧
    ∀ p ∈ (Population.new 1 1).1.people,
      p.happiness.happiness_modifiers.length = 1 ∧
      ∀ m ∈ p.happiness.happiness_modifiers,
        m.kind = HappinessModifierKind.Default ∧ m.happiness = 1 / 2 :=
  C5_population_new 1 1 (by decide)

theorem idxLookup_buildIndex_some : ∀ (l : List Person) (k0 : Nat) (pid : PersonId) (i : Nat),
    idxLookup pid (buildIndex l k0) = some i →
    k0 ≤ i ∧ ∃ p, l.get? (i - k0) = some p ∧ p.key = pid := by
  intro l
  induction l with
  | nil => intro k0 pid i h; exact absurd h (by simp [buildIndex, idxLookup])
  | cons p rest ih =>
    intro k0 pid i h
    simp only [buildIndex, idxLookup] at h
    by_cases hk : p.key = pid
    · rw [if_pos hk] at h
      obtain rfl : k0 = i := Option.some.inj h
      refine ⟨le_refl _, p, ?_, hk⟩
      simp
    · rw [if_neg hk] at h
      obtain ⟨hle, q, hq, hkey⟩ := ih (k0 + 1) pid i h
      refine ⟨by omega, q, ?_, hkey⟩
      have hik : i - k0 = (i - (k0 + 1)) + 1 := by omega
      rw [hik]
      simpa using hq

theorem idxLookup_buildIndex_none : ∀ (l : List Person) (k0 : Nat) (pid : PersonId),
    (∀ p ∈ l, p.key ≠ pid) → idxLookup pid (buildIndex l k0) = none := by
  intro l
  induction l with
  | nil => intro k0 pid _; rfl
  | cons p rest ih =>
    intro k0 pid h
    simp only [buildIndex, idxLookup]
    rw [if_neg (h p (List.mem_cons_self p rest))]
    exact ih (k0 + 1) pid fun q hq => h q (List.mem_cons_of_mem p hq)

theorem idxLookup_buildIndex_isSome : ∀ (l : List Person) (k0 : Nat) (pid : PersonId),
    (∃ p ∈ l, p.key = pid) → ∃ i, idxLookup pid (buildIndex l k0) = some i := by
  intro l
  induction l with
  | nil => intro k0 pid h; simp at h
  | cons p rest ih =>
    intro k0 pid h
    simp only [buildIndex, idxLookup]
    by_cases hk : p.key = pid
    · exact ⟨k0, by rw [if_pos hk]⟩
    · rcases h with ⟨q, hq, hkey⟩
      rcases List.mem_cons.mp hq with rfl | hq'
      · exact absurd hkey hk
      · obtain ⟨i, hi⟩ := ih (k0 + 1) pid ⟨q, hq', hkey⟩
        exact ⟨i, by rw [if_neg hk]; exact hi⟩

/-- Claim C6: on an index-consistent population, looking up a present PersonId
returns a person whose key equals that id (never silently a wrong element),
and looking up an absent id fails (the code's NotFound panic, modelled as
`none`). -/
theorem C6_person_lookup (pop : Population) (person_id : PersonId) (hwf : pop.wf) :
    ((∃ p ∈ pop.people, p.key = person_id) →
        ∃ p, pop.person person_id = some p ∧ p.key = person_id) ∧
    ((∀ p ∈ pop.people, p.key ≠ person_id) → pop.person person_id = none) := by
  constructor
  · intro hex
    obtain ⟨i, hi⟩ := idxLookup_buildIndex_isSome pop.people 0 person_id hex
    obtain ⟨-, p, hp, hkey⟩ := idxLookup_buildIndex_some pop.people 0 person_id i hi
    rw [Nat.sub_zero] at hp
    refine ⟨p, ?_, hkey⟩
    unfold Population.person
    rw [Population.wf] at hwf
    rw [hwf, hi]
    exact hp
  · intro hall
    unfold Population.person
    rw [Population.wf] at hwf
    rw [hwf, idxLookup_buildIndex_none pop.people 0 person_id hall]

theorem C6_witness :
    ((∃ p ∈ (Population.new 1 1).1.people, p.key = ⟨2⟩) →
        ∃ p, (Population.new 1 1).1.person ⟨2⟩ = some p ∧ p.key = ⟨2⟩) ∧
    ((∀ p ∈ (Population.new 1 1).1.people, p.key ≠ ⟨2⟩) →
        (Population.new 1 1).1.person ⟨2⟩ = none) :=
  C6_person_lookup (Population.new 1 1).1 ⟨2⟩ rfl

theorem Person.finish_week_eq (p : Person) (mc : Nat) :
    Person.finish_week p mc
      = ({ p with happiness := ⟨[⟨⟨mc⟩, .Default⟩]⟩ }, (mc + 1) % U64_MOD) := rfl

theorem mapCounter_cons (f : Person → Nat → Person × Nat) (p : Person)
    (rest : List Person) (mc : Nat) :
    mapCounter f (p :: rest) mc =
      ((f p mc).1 :: (mapCounter f rest (f p mc).2).1,
        (mapCounter f rest (f p mc).2).2) := rfl

theorem mapCounter_finish_week_keys : ∀ (l : List Person) (mc : Nat),
    (mapCounter Person.finish_week l mc).1.map Person.key = l.map Person.key := by
  intro l
  induction l with
  | nil => intro mc; rfl
  | cons p rest ih =>
    intro mc
    rw [mapCounter_cons, List.map_cons, List.map_cons, ih]
    rfl

theorem mapCounter_finish_week_get? : ∀ (l : List Person) (mc i : Nat) (p : Person),
    mc < U64_MOD → l.get? i = some p →
    (mapCounter Person.finish_week l mc).1.get? i
      = some (Person.finish_week p ((mc + i) % U64_MOD)).1 := by
  intro l
  induction l with
  | nil => intro mc i p _ h; simp at h
  | cons q rest ih =>
    intro mc i p hmc h
    cases i with
    | zero =>
      rw [List.get?_cons_zero] at h
      obtain rfl : q = p := Option.some.inj h
      have hm : (mc + 0) % U64_MOD = mc := by rw [Nat.add_zero, Nat.mod_eq_of_lt hmc]
      rw [mapCounter_cons, List.get?_cons_zero, hm]
    | succ i =>
      rw [List.get?_cons_succ] at h
      have hmc' : (Person.finish_week q mc).2 < U64_MOD := by
        rw [Person.finish_week_eq]
        exact Nat.mod_lt _ U64_MOD_pos
      have harg : ((Person.finish_week q mc).2 + i) % U64_MOD
          = (mc + (i + 1)) % U64_MOD := by
        rw [Person.finish_week_eq]
        dsimp only
        rw [Nat.mod_add_mod]
        congr 1
        omega
      rw [mapCounter_cons, List.get?_cons_succ, ih (Person.finish_week q mc).2 i p hmc' h, harg]

/-- Claim C7: the weekly population advance preserves the person-key sequence
(hence the set of PersonIds and their order), leaves the index untouched, and
ticks the person at each position exactly once, in store order — the person at
position i is advanced with the i-th freshly threaded allocator state. -/
theorem C7_population_finish_week (pop : Population) (mc : Nat) (hmc : mc < U64_MOD) :
    (Population.finish_week pop mc).1.people.map Person.key = pop.people.map Person.key ∧
    (Population.finish_week pop mc).1.people_by_id = pop.people_by_id ∧
    ∀ i p, pop.people.get? i = some p →
      (Population.finish_week pop mc).1.people.get? i
        = some (Person.finish_week p ((mc + i) % U64_MOD)).1 := by
  refine ⟨mapCounter_finish_week_keys pop.people mc, rfl, ?_⟩
  intro i p hp
  exact mapCounter_finish_week_get? pop.people mc i p hmc hp

theorem C7_witness :
    (Population.finish_week (Population.new 1 1).1 6).1.people.map Person.key
        = (Population.new 1 1).1.people.map Person.key ∧
    (Population.finish_week (Population.new 1 1).1 6).1.people_by_id
        = (Population.new 1 1).1.people_by_id ∧
    ∀ i p, (Population.new 1 1).1.people.get? i = some p →
      (Population.finish_week (Population.new 1 1).1 6).1.people.get? i
        = some (Person.finish_week p ((6 + i) % U64_MOD)).1 :=
  C7_population_finish_week (Population.new 1 1).1 6 (by decide)

theorem buildIndex_congr : ∀ (l₁ l₂ : List Person) (k0 : Nat),
    l₁.map Person.key = l₂.map Person.key → buildIndex l₁ k0 = buildIndex l₂ k0 := by
  intro l₁
  induction l₁ with
  | nil =>
    intro l₂ k0 h
    cases l₂ with
    | nil => rfl
    | cons q rest₂ => simp at h
  | cons p rest ih =>
    intro l₂ k0 h
    cases l₂ with
    | nil => simp at h
    | cons q rest₂ =>
      simp only [List.map_cons, List.cons.injEq] at h
      simp only [buildIndex]
      rw [h.1, ih rest₂ (k0 + 1) h.2]

/-- Claim C10: in every state reachable from construction by weekly advances
(lookups do not mutate), the index is consistent with the sequence: it is
exactly the (key, position) pair of each person in order, keys pairwise
distinct — no reachable operation adds, removes, reorders, or re-identifies
people. -/
theorem C10_index_consistent (pop : Population) (mc : Nat) (hr : Reached pop mc) :
    pop.people_by_id = buildIndex pop.people 0 ∧
    (pop.people.map Person.key).Pairwise (· ≠ ·) := by
  induction hr with
  | start pc mc0 hpc =>
    exact ⟨rfl, createPeople_keys_pairwise 5 pc mc0 hpc (by decide)⟩
  | step pop0 mc0 hr0 ih =>
    obtain ⟨hidx, hpair⟩ := ih
    have hkeys := mapCounter_finish_week_keys pop0.people mc0
    constructor
    · show pop0.people_by_id = _
      rw [hidx]
      exact buildIndex_congr pop0.people _ 0 hkeys.symm
    · show ((mapCounter Person.finish_week pop0.people mc0).1.map Person.key).Pairwise (· ≠ ·)
      rw [hkeys]
      exact hpair

theorem C10_witness :
    (Population.new 1 1).1.people_by_id = buildIndex (Population.new 1 1).1.people 0 ∧
    ((Population.new 1 1).1.people.map Person.key).Pairwise (· ≠ ·) :=
  C10_index_consistent (Population.new 1 1).1 (Population.new 1 1).2.2
    (Reached.start 1 1 (by decide))

end LeptosBug
